import Mathlib

/-!
Verification of the certified asset store (`ic-certified-assets`).

The repository source available here is `src/ic-certified-assets/src/lib.rs`,
the dispatch layer: it declares the canister entry points, traps on errors
(so a failing call leaves the state unchanged), and contains the helper
functions `get_asset_chunk`, `get_asset`, `exists`, `init`, `list_assets`.
The `state_machine` module it calls into is not part of the sources given,
so the store itself (assets, encodings, batches, chunks, authorization,
certification) is modelled from the specification, while the helpers of
`lib.rs` are translated from the source.

Machine integers: chunk/batch ids and lengths are `Nat` (the Rust code uses
`candid::Nat`, an arbitrary-precision natural). Bytes are `Nat` values.
The cryptographic digest (SHA-256 in the source) is an abstract parameter
`digest : Bytes → Bytes`; every theorem holds for all digest functions and
witnesses instantiate it concretely.
-/

namespace CertifiedAssets

abbrev Bytes := List Nat

abbrev Key := String

abbrev Principal := Nat

/-! ### Association-list primitives

The store's maps (assets, chunks, batches, per-asset encodings) are modelled
as insertion-ordered association lists: the spec fixes insertion order for
`list_assets`, and map updates keep the position of an existing key. -/

/-- Lookup in an association list: the value of the first pair with the key. -/
def alookup {κ α : Type} [DecidableEq κ] (l : List (κ × α)) (k : κ) : Option α :=
  match l with
  | [] => none
  | (k₀, v₀) :: t => if k₀ = k then some v₀ else alookup t k

/-- Insert-or-replace in an association list: an existing key keeps its
position, a new key is appended at the end (insertion order). -/
def aset {κ α : Type} [DecidableEq κ] (l : List (κ × α)) (k : κ) (v : α) :
    List (κ × α) :=
  match l with
  | [] => [(k, v)]
  | (k₀, v₀) :: t => if k₀ = k then (k, v) :: t else (k₀, v₀) :: aset t k v

/-- Remove every pair with the given key from an association list. -/
def aremove {κ α : Type} [DecidableEq κ] (l : List (κ × α)) (k : κ) :
    List (κ × α) :=
  match l with
  | [] => []
  | (k₀, v₀) :: t => if k₀ = k then aremove t k else (k₀, v₀) :: aremove t k

/-! ### Data model (modelled from the spec, §3) -/

/-- Modelled from the spec: an `AssetEncoding` of `state_machine.rs` (not in
the given sources) — an ordered sequence of immutable byte chunks, the total
byte length, the content hash over the full (concatenated) encoding, and the
last-modified timestamp. -/
structure AssetEncoding where
  content_chunks : List Bytes
  total_length : Nat
  sha256 : Bytes
  modified : Nat
deriving DecidableEq, Repr

/-- Modelled from the spec: an `Asset` of `state_machine.rs` — a content
type plus a map from content-encoding name to `AssetEncoding`. -/
structure Asset where
  content_type : String
  encodings : List (String × AssetEncoding)
deriving DecidableEq, Repr

/-- Modelled from the spec: a `Chunk` of `state_machine.rs` — owned by
exactly one batch, holding one immutable byte buffer. -/
structure Chunk where
  batch_id : Nat
  content : Bytes
deriving DecidableEq, Repr

/-- Modelled from the spec: a `Batch` of `state_machine.rs` — an in-progress
upload session holding an expiry timestamp. -/
structure Batch where
  expires_at : Nat
deriving DecidableEq, Repr

/-- Modelled from the spec: the `State` of `state_machine.rs` — assets,
chunks, batches keyed by monotonically increasing ids, and the
authorization list. -/
structure State where
  assets : List (Key × Asset)
  chunks : List (Nat × Chunk)
  next_chunk_id : Nat
  batches : List (Nat × Batch)
  next_batch_id : Nat
  authorized : List Principal
deriving DecidableEq, Repr

/-- The default (empty) state, as in `State::default()`. -/
def State.default : State :=
  { assets := [], chunks := [], next_chunk_id := 0,
    batches := [], next_batch_id := 0, authorized := [] }

/-- The spec's error kinds (§7). The Rust code reports errors as strings;
the spec classifies them into these kinds. -/
inductive Err where
  | NotFound
  | AlreadyExists
  | HashMismatch
  | StaleToken
  | Unauthorized
  | Expired
deriving DecidableEq, Repr

/-- Modelled from the spec: the fixed batch TTL. The concrete value is not
given by the spec; no theorem depends on it. -/
def BATCH_EXPIRY_NANOS : Nat := 300000000000

/-! ### Batch & chunk lifecycle (modelled from the spec, §4.1) -/

/-- Modelled from the spec: `create_batch` of `state_machine.rs` — evicts
expired batches and their orphaned chunks, then allocates a fresh batch with
expiry `now + TTL` under the next batch id. -/
def create_batch (now : Nat) (s : State) : Nat × State :=
  let expiredIds := (s.batches.filter fun p => decide (p.2.expires_at < now)).map Prod.fst
  let bid := s.next_batch_id
  (bid,
   { s with
     batches := (s.batches.filter fun p => decide (¬ p.2.expires_at < now))
                  ++ [(bid, { expires_at := now + BATCH_EXPIRY_NANOS })],
     chunks := s.chunks.filter fun p => decide (p.2.batch_id ∉ expiredIds),
     next_batch_id := s.next_batch_id + 1 })

/-- Modelled from the spec: `create_chunk` of `state_machine.rs` — fails
with `NotFound` if the batch is unknown or already expired; otherwise stores
the byte buffer under the next chunk id and extends the batch's expiry
(sliding TTL). -/
def create_chunk (batch_id : Nat) (content : Bytes) (now : Nat) (s : State) :
    Except Err (Nat × State) :=
  match alookup s.batches batch_id with
  | none => .error .NotFound
  | some b =>
    if b.expires_at < now then .error .NotFound
    else
      let cid := s.next_chunk_id
      .ok (cid,
        { s with
          chunks := s.chunks ++ [(cid, { batch_id := batch_id, content := content })],
          next_chunk_id := s.next_chunk_id + 1,
          batches := aset s.batches batch_id { expires_at := now + BATCH_EXPIRY_NANOS } })

/-- `create_chunk` n times on the same batch, in order (the claim's
`create_chunk`(×n) sequence), returning the fresh chunk ids in order. -/
def create_chunks (batch_id : Nat) (contents : List Bytes) (now : Nat) (s : State) :
    Except Err (List Nat × State) :=
  match contents with
  | [] => .ok ([], s)
  | c :: rest => do
    let (cid, s₁) ← create_chunk batch_id c now s
    let (cids, s₂) ← create_chunks batch_id rest now s₁
    .ok (cid :: cids, s₂)

/-- Modelled from the spec: consuming the chunks named by `chunk_ids` — each
id must exist and (when an owning batch is given, as inside `commit_batch`)
belong to that batch; a chunk is consumed (removed) as it is used, so an id
repeated in the list fails the second time (`consumed at most once`).
Returns the chunk payloads in the order given. -/
def take_chunks (owner : Option Nat) (chunk_ids : List Nat) (s : State) :
    Except Err (List Bytes × State) :=
  match chunk_ids with
  | [] => .ok ([], s)
  | cid :: rest =>
    match alookup s.chunks cid with
    | none => .error .NotFound
    | some c =>
      if owner = some c.batch_id ∨ owner = none then
        match take_chunks owner rest { s with chunks := aremove s.chunks cid } with
        | .error e => .error e
        | .ok (bs, s₂) => .ok (c.content :: bs, s₂)
      else .error .NotFound

/-! ### Asset & encoding management (modelled from the spec, §4.2) -/

/-- Modelled from the spec: `create_asset` of `state_machine.rs` — fails
with `AlreadyExists` if the key is present with a conflicting content type;
idempotent if identical; otherwise appends a fresh content-less asset. -/
def create_asset (key : Key) (content_type : String) (s : State) :
    Except Err State :=
  match alookup s.assets key with
  | some a =>
    if a.content_type = content_type then .ok s else .error .AlreadyExists
  | none =>
    .ok { s with assets := s.assets ++ [(key, { content_type := content_type, encodings := [] })] }

/-- Modelled from the spec: `set_asset_content` of `state_machine.rs` —
fails with `NotFound` if the key is absent; consumes the named chunks (in
`commit_batch` they must belong to the committing batch, `owner`);
concatenates them in the order given into the encoding, computes total
length and content hash; fails with `HashMismatch` when a supplied expected
digest differs from the computed one. -/
def set_asset_content (digest : Bytes → Bytes) (owner : Option Nat)
    (key : Key) (content_encoding : String) (chunk_ids : List Nat)
    (sha256 : Option Bytes) (now : Nat) (s : State) : Except Err State :=
  match alookup s.assets key with
  | none => .error .NotFound
  | some a =>
    match take_chunks owner chunk_ids s with
    | .error e => .error e
    | .ok (contents, s₁) =>
      let hash := digest contents.flatten
      let enc : AssetEncoding :=
        { content_chunks := contents,
          total_length := (contents.map List.length).sum,
          sha256 := hash, modified := now }
      let a₂ : Asset :=
        { a with encodings := aset a.encodings content_encoding enc }
      let s₂ : State := { s₁ with assets := aset s₁.assets key a₂ }
      match sha256 with
      | some expected =>
        if expected = hash then .ok s₂ else .error .HashMismatch
      | none => .ok s₂

/-- Modelled from the spec: `unset_asset_content` of `state_machine.rs` —
fails with `NotFound` if the key is absent; removes the encoding; removing
the last encoding leaves the asset content-less but not deleted. -/
def unset_asset_content (key : Key) (content_encoding : String) (s : State) :
    Except Err State :=
  match alookup s.assets key with
  | none => .error .NotFound
  | some a =>
    let a₂ : Asset :=
      { a with encodings := aremove a.encodings content_encoding }
    .ok { s with assets := aset s.assets key a₂ }

/-- Modelled from the spec: `delete_asset` of `state_machine.rs` — removes
the whole asset; never fails (the `lib.rs` endpoint has no error branch). -/
def delete_asset (key : Key) (s : State) : State :=
  { s with assets := aremove s.assets key }

/-- Modelled from the spec: `clear` of `state_machine.rs` — removes
everything (assets, batches, chunks) but preserves the authorization
list. -/
def clear (s : State) : State :=
  { State.default with authorized := s.authorized }

/-! ### Commit (modelled from the spec, §4.1) -/

/-- The batch operations of `CommitBatchArguments` (spec §4.1: create asset
/ set content from chunk ids / unset content / delete asset). -/
inductive Operation where
  | CreateAsset (key : Key) (content_type : String)
  | SetAssetContent (key : Key) (content_encoding : String)
      (chunk_ids : List Nat) (sha256 : Option Bytes)
  | UnsetAssetContent (key : Key) (content_encoding : String)
  | DeleteAsset (key : Key)
deriving DecidableEq, Repr

/-- Apply one batch operation; `SetAssetContent` checks chunk ownership
against the committing batch. -/
def apply_operation (digest : Bytes → Bytes) (batch_id : Nat) (now : Nat)
    (op : Operation) (s : State) : Except Err State :=
  match op with
  | .CreateAsset key ct => create_asset key ct s
  | .SetAssetContent key enc ids sha =>
      set_asset_content digest (some batch_id) key enc ids sha now s
  | .UnsetAssetContent key enc => unset_asset_content key enc s
  | .DeleteAsset key => .ok (delete_asset key s)

/-- Apply the batch operations in order, stopping at the first failure. -/
def apply_operations (digest : Bytes → Bytes) (batch_id : Nat) (now : Nat)
    (ops : List Operation) (s : State) : Except Err State :=
  match ops with
  | [] => .ok s
  | op :: rest =>
    match apply_operation digest batch_id now op s with
    | .error e => .error e
    | .ok s₁ => apply_operations digest batch_id now rest s₁

/-! ### Read path (modelled from the spec, §4.3) -/

/-- The view returned by `get` (the `EncodedAsset` of `state_machine.rs`):
first chunk of the selected encoding plus its metadata. -/
structure EncodedAsset where
  content : Bytes
  content_type : String
  content_encoding : String
  total_length : Nat
  sha256 : Bytes
deriving DecidableEq, Repr

/-- First encoding name of `accept_encodings` (in the caller's order) that
is present on the asset, with its encoding. -/
def first_encoding (a : Asset) (accept_encodings : List String) :
    Option (String × AssetEncoding) :=
  match accept_encodings with
  | [] => none
  | n :: rest =>
    match alookup a.encodings n with
    | some e => some (n, e)
    | none => first_encoding a rest

/-- Modelled from the spec: `get` of `state_machine.rs` — selects, among
`accept_encodings` in caller-specified preference order, the first encoding
present on the asset; fails with `NotFound` if the key is unknown or none
match. -/
def get (s : State) (key : Key) (accept_encodings : List String) :
    Except Err EncodedAsset :=
  match alookup s.assets key with
  | none => .error .NotFound
  | some a =>
    match first_encoding a accept_encodings with
    | none => .error .NotFound
    | some (n, e) =>
      .ok { content := e.content_chunks.headD [],
            content_type := a.content_type,
            content_encoding := n,
            total_length := e.total_length,
            sha256 := e.sha256 }

/-- Modelled from the spec: `get_chunk` of `state_machine.rs` — returns
exactly one chunk's bytes; `NotFound` for an unknown key/encoding or an
out-of-range index; `HashMismatch` if a supplied expected digest disagrees
with the encoding's stored digest. -/
def get_chunk (s : State) (key : Key) (content_encoding : String)
    (index : Nat) (sha256 : Option Bytes) : Except Err Bytes :=
  match alookup s.assets key with
  | none => .error .NotFound
  | some a =>
    match alookup a.encodings content_encoding with
    | none => .error .NotFound
    | some e =>
      match sha256 with
      | some expected =>
        if expected = e.sha256 then
          match e.content_chunks[index]? with
          | some c => .ok c
          | none => .error .NotFound
        else .error .HashMismatch
      | none =>
        match e.content_chunks[index]? with
        | some c => .ok c
        | none => .error .NotFound

/-- One entry of `list_assets`: key, content type and per-encoding
(name, length, hash, modified) metadata. -/
structure AssetDetails where
  key : Key
  content_type : String
  encodings : List (String × Nat × Bytes × Nat)
deriving DecidableEq, Repr

/-- Modelled from the spec: `list_assets` of `state_machine.rs` — a snapshot
of every asset, in the store's (insertion) order. -/
def list_assets (s : State) : List AssetDetails :=
  s.assets.map fun p =>
    { key := p.1,
      content_type := p.2.content_type,
      encodings := p.2.encodings.map fun q =>
        (q.1, q.2.total_length, q.2.sha256, q.2.modified) }

/-! ### Authorization (modelled from the spec, §3/§6; `lib.rs` lines 25–34,
194–209) -/

/-- `is_authorized` of `lib.rs`: the caller must be in the authorization
list. -/
def is_authorized (p : Principal) (s : State) : Bool :=
  p ∈ s.authorized

/-- Modelled from the spec: `authorize` of `state_machine.rs` — only an
already-authorized caller may add an identity; the list grows by the new
identity (if not already present). -/
def authorize (caller other : Principal) (s : State) : Except Err State :=
  if caller ∈ s.authorized then
    .ok { s with authorized :=
      if other ∈ s.authorized then s.authorized else s.authorized ++ [other] }
  else .error .Unauthorized

/-- Modelled from the spec: `authorize_unconditionally` of
`state_machine.rs` — adds the identity without a caller check. -/
def authorize_unconditionally (p : Principal) (s : State) : State :=
  { s with authorized :=
    if p ∈ s.authorized then s.authorized else s.authorized ++ [p] }

/-- `init` of `lib.rs` (lines 203–209): clears the state, then
unconditionally authorizes the initializing identity. -/
def init (caller : Principal) (s : State) : State :=
  authorize_unconditionally caller (clear s)

/-- Modelled from the spec: `commit_batch` of `state_machine.rs` — fails
with `NotFound` for an unknown batch and `Expired` for a batch past its TTL
(the batch is then not consumed); otherwise applies the ordered operations
(the first failure aborts the whole commit), then consumes the batch and
frees its residual chunks. -/
def commit_batch (digest : Bytes → Bytes) (batch_id : Nat)
    (ops : List Operation) (now : Nat) (s : State) : Except Err State :=
  match alookup s.batches batch_id with
  | none => .error .NotFound
  | some b =>
    if b.expires_at < now then .error .Expired
    else
      match apply_operations digest batch_id now ops s with
      | .error e => .error e
      | .ok s₁ =>
        .ok { s₁ with
              batches := aremove s₁.batches batch_id,
              chunks := s₁.chunks.filter fun p => decide (p.2.batch_id ≠ batch_id) }

/-! ### `lib.rs` helpers (translated from the source) -/

/-- `get_asset_chunk` of `lib.rs` (lines 242–253): a `get_chunk` for the
`"identity"` encoding with `sha256 = None`. -/
def get_asset_chunk (s : State) (key : Key) (index : Nat) : Except Err Bytes :=
  get_chunk s key "identity" index none

/-- The `while current_length < total_length` loop of `get_asset` in
`lib.rs` (lines 263–271), with explicit fuel standing in for the source's
unbounded loop; `none` means the fuel ran out before the loop exited. -/
def get_asset_loop (s : State) (key : Key) (total : Nat) :
    Nat → Nat → Bytes → Except Err (Option Bytes)
  | fuel, index, acc =>
    if acc.length < total then
      match fuel with
      | 0 => .ok none
      | fuel₂ + 1 =>
        match get_asset_chunk s key index with
        | .error e => .error e
        | .ok chunk => get_asset_loop s key total fuel₂ (index + 1) (acc ++ chunk)
    else .ok (some acc)

/-- `get_asset` of `lib.rs` (lines 255–273): `get` with
`accept_encodings = ["identity"]`, then chunk accumulation by increasing
index until the accumulated byte count reaches the reported total length. -/
def get_asset (s : State) (asset_name : String) (fuel : Nat) :
    Except Err (Option Bytes) :=
  match get s asset_name ["identity"] with
  | .error e => .error e
  | .ok asset_data => get_asset_loop s asset_name asset_data.total_length fuel 0 []

/-- `exists` of `lib.rs` (lines 287–298): true iff `get` with
`accept_encodings = ["identity"]` succeeds. (`exists` is a reserved word in
Lean, hence the name.) -/
def exists_asset (s : State) (asset_name : String) : Bool :=
  match get s asset_name ["identity"] with
  | .ok _ => true
  | .error _ => false

/-! ### Mutation dispatch (`lib.rs` update endpoints)

Every update endpoint of `lib.rs` calls a state-machine mutation and traps
on error; a trap rolls the whole call back, so a failing mutation leaves the
state exactly as it was. `run_mutation` is the mutation itself,
`dispatch_mutation` the endpoint's trap semantics. -/

/-- The mutating entry points of `lib.rs` with their arguments. -/
inductive Mutation where
  | Authorize (caller other : Principal)
  | CreateBatch
  | CreateChunk (batch_id : Nat) (content : Bytes)
  | CreateAsset (key : Key) (content_type : String)
  | SetAssetContent (key : Key) (content_encoding : String)
      (chunk_ids : List Nat) (sha256 : Option Bytes)
  | UnsetAssetContent (key : Key) (content_encoding : String)
  | DeleteAsset (key : Key)
  | CommitBatch (batch_id : Nat) (ops : List Operation)
  | Clear
deriving DecidableEq, Repr

/-- Run one mutation against the state (the state-machine call made by the
corresponding `lib.rs` endpoint). -/
def run_mutation (digest : Bytes → Bytes) (m : Mutation) (now : Nat)
    (s : State) : Except Err State :=
  match m with
  | .Authorize caller other => authorize caller other s
  | .CreateBatch => .ok (create_batch now s).2
  | .CreateChunk batch_id content =>
      (create_chunk batch_id content now s).map Prod.snd
  | .CreateAsset key ct => create_asset key ct s
  | .SetAssetContent key enc ids sha =>
      set_asset_content digest none key enc ids sha now s
  | .UnsetAssetContent key enc => unset_asset_content key enc s
  | .DeleteAsset key => .ok (delete_asset key s)
  | .CommitBatch batch_id ops => commit_batch digest batch_id ops now s
  | .Clear => .ok (clear s)

/-- The endpoint semantics of `lib.rs`: on error the endpoint traps and the
call is rolled back, so the state is unchanged. -/
def dispatch_mutation (digest : Bytes → Bytes) (m : Mutation) (now : Nat)
    (s : State) : State :=
  match run_mutation digest m now s with
  | .ok s₂ => s₂
  | .error _ => s

/-- A trace of dispatched mutations (each with its call time), applied in
order. -/
def run_trace (digest : Bytes → Bytes) (trace : List (Mutation × Nat))
    (s : State) : State :=
  match trace with
  | [] => s
  | (m, now) :: rest => run_trace digest rest (dispatch_mutation digest m now s)

/-! ### Concrete example states (used by the witnesses) -/

/-- An identity encoding of `"hi"` split into two one-byte chunks; its hash
field is the identity digest of the content, matching what
`set_asset_content` computes with `digest := id`. -/
def encIdentityEx : AssetEncoding :=
  { content_chunks := [[104], [105]], total_length := 2,
    sha256 := [104, 105], modified := 0 }

/-- A gzip encoding with a single chunk. -/
def encGzipEx : AssetEncoding :=
  { content_chunks := [[7, 8]], total_length := 2, sha256 := [7, 8], modified := 0 }

/-- An asset holding both an identity and a gzip encoding. -/
def assetBothEx : Asset :=
  { content_type := "text/plain", encodings := [("identity", encIdentityEx), ("gzip", encGzipEx)] }

/-- An asset holding only a gzip encoding (no identity encoding). -/
def assetGzipOnlyEx : Asset :=
  { content_type := "text/plain", encodings := [("gzip", encGzipEx)] }

/-- A store holding the two example assets. -/
def exState : State :=
  { State.default with assets := [("a", assetBothEx), ("g", assetGzipOnlyEx)] }

/-! ### C6 — the authorization list -/

/-- The claim's characterisation of the authorization list: the initial
list plus the identities added by `authorize` calls whose caller was
authorized at the time of the call (an identity already present is not
duplicated); no other mutation touches the list. -/
def auth_trace_spec (trace : List (Mutation × Nat)) (auth : List Principal) :
    List Principal :=
  match trace with
  | [] => auth
  | (m, _) :: rest =>
    match m with
    | .Authorize caller other =>
      auth_trace_spec rest
        (if caller ∈ auth then
          (if other ∈ auth then auth else auth ++ [other]) else auth)
    | _ => auth_trace_spec rest auth

/-! ### C3 — the certification root digest -/

/-- Lexicographic order on byte lists (used to serialize the certification
leaves canonically). -/
def bytesLe : Bytes → Bytes → Bool
  | [], _ => true
  | _ :: _, [] => false
  | a :: as, b :: bs => if a < b then true else if b < a then false else bytesLe as bs

/-- Length-prefixed byte serialization of a string. -/
def encode_string (x : String) : Bytes :=
  x.length :: (x.toList.map Char.toNat)

/-- Serialization of one certification leaf: (asset key, encoding name,
content hash). -/
def encode_entry (p : Key × String × Bytes) : Bytes :=
  encode_string p.1 ++ encode_string p.2.1 ++ p.2.2

/-- The certification tree's leaves (spec §3): one
(asset path, encoding name) → content hash entry per encoding held by each
asset, in store order. -/
def cert_entries (s : State) : List (Key × String × Bytes) :=
  (s.assets.map fun p => p.2.encodings.map fun q => (p.1, q.1, q.2.sha256)).flatten

/-- Modelled from the spec: the certification root digest of
`state_machine.rs` — a Merkle-style commitment over the current
(asset path, encoding name) → hash set. The tree shape is abstracted: the
root is the digest of the canonical (sorted) serialization of the leaves,
which is a pure function of the leaf set exactly as the spec's invariant
demands. -/
def root_hash (digest : Bytes → Bytes) (s : State) : Bytes :=
  digest (((cert_entries s).map encode_entry).mergeSort bytesLe).flatten

/-- Two concrete stores holding the same assets, reached by different
operation histories (creation in the order a,b versus b,a). -/
def exTraceAB : List (Mutation × Nat) :=
  [(.CreateAsset "a" "t", 0), (.CreateAsset "b" "t", 0),
   (.SetAssetContent "a" "identity" [] none, 0),
   (.SetAssetContent "b" "identity" [] none, 0)]

/-- As `exTraceAB` with the two assets created and filled in the opposite
order. -/
def exTraceBA : List (Mutation × Nat) :=
  [(.CreateAsset "b" "t", 0), (.CreateAsset "a" "t", 0),
   (.SetAssetContent "b" "identity" [] none, 0),
   (.SetAssetContent "a" "identity" [] none, 0)]

/-- A two-chunk identity encoding satisfying the committed-encoding
invariants for the identity digest. -/
def encC4 : AssetEncoding :=
  { content_chunks := [[10, 11], [12]], total_length := 3,
    sha256 := [10, 11, 12], modified := 0 }

/-- The asset holding `encC4` as its identity encoding. -/
def assetC4 : Asset :=
  { content_type := "text/plain", encodings := [("identity", encC4)] }

/-- A store holding one asset whose identity encoding satisfies the
committed-encoding invariants for the identity digest. -/
def exStateC4 : State :=
  { State.default with assets := [("f", assetC4)] }

theorem alookup_aset_self {κ α : Type} [DecidableEq κ]
    (l : List (κ × α)) (k : κ) (v : α) : alookup (aset l k v) k = some v := by
  induction l with
  | nil => simp [aset, alookup]
  | cons p t ih =>
    obtain ⟨k₀, v₀⟩ := p
    by_cases h : k₀ = k
    · simp [aset, h, alookup]
    · simp [aset, h, alookup, ih]

theorem alookup_aset_ne {κ α : Type} [DecidableEq κ]
    (l : List (κ × α)) (k k₂ : κ) (v : α) (hne : k₂ ≠ k) :
    alookup (aset l k v) k₂ = alookup l k₂ := by
  have hne₂ : ¬ k = k₂ := fun h => hne h.symm
  induction l with
  | nil => simp [aset, alookup, hne₂]
  | cons p t ih =>
    obtain ⟨k₀, v₀⟩ := p
    by_cases h : k₀ = k
    · subst h
      simp [aset, alookup, hne₂]
    · simp [aset, h, alookup, ih]

theorem alookup_aremove_self {κ α : Type} [DecidableEq κ]
    (l : List (κ × α)) (k : κ) : alookup (aremove l k) k = none := by
  induction l with
  | nil => simp [aremove, alookup]
  | cons p t ih =>
    obtain ⟨k₀, v₀⟩ := p
    by_cases h : k₀ = k
    · simp [aremove, h, ih]
    · simp [aremove, h, alookup, ih]

theorem alookup_aremove_ne {κ α : Type} [DecidableEq κ]
    (l : List (κ × α)) (k k₂ : κ) (hne : k₂ ≠ k) :
    alookup (aremove l k) k₂ = alookup l k₂ := by
  induction l with
  | nil => simp [aremove, alookup]
  | cons p t ih =>
    obtain ⟨k₀, v₀⟩ := p
    by_cases h : k₀ = k
    · subst h
      have hne₂ : ¬ k₀ = k₂ := fun h => hne h.symm
      simp [aremove, alookup, hne₂, ih]
    · simp [aremove, h, alookup, ih]

theorem aremove_append {κ α : Type} [DecidableEq κ]
    (l₁ l₂ : List (κ × α)) (k : κ) :
    aremove (l₁ ++ l₂) k = aremove l₁ k ++ aremove l₂ k := by
  induction l₁ with
  | nil => simp [aremove]
  | cons p t ih =>
    obtain ⟨k₀, v₀⟩ := p
    by_cases h : k₀ = k
    · simp [aremove, h, ih]
    · simp [aremove, h, ih]

theorem aremove_of_not_mem {κ α : Type} [DecidableEq κ]
    (l : List (κ × α)) (k : κ) (h : k ∉ l.map Prod.fst) :
    aremove l k = l := by
  induction l with
  | nil => simp [aremove]
  | cons p t ih =>
    obtain ⟨k₀, v₀⟩ := p
    simp only [List.map_cons, List.mem_cons] at h
    push_neg at h
    have hne : ¬ k₀ = k := fun he => h.1 he.symm
    simp [aremove, hne, ih h.2]

theorem alookup_append_left {κ α : Type} [DecidableEq κ]
    (l₁ l₂ : List (κ × α)) (k : κ) (v : α) (h : alookup l₁ k = some v) :
    alookup (l₁ ++ l₂) k = some v := by
  induction l₁ with
  | nil => simp [alookup] at h
  | cons p t ih =>
    obtain ⟨k₀, v₀⟩ := p
    by_cases he : k₀ = k
    · simp [alookup, he] at h ⊢
      exact h
    · simp [alookup, he] at h ⊢
      exact ih h

theorem alookup_append_right {κ α : Type} [DecidableEq κ]
    (l₁ l₂ : List (κ × α)) (k : κ) (h : k ∉ l₁.map Prod.fst) :
    alookup (l₁ ++ l₂) k = alookup l₂ k := by
  induction l₁ with
  | nil => simp
  | cons p t ih =>
    obtain ⟨k₀, v₀⟩ := p
    simp only [List.map_cons, List.mem_cons] at h
    push_neg at h
    have hne : ¬ k₀ = k := fun he => h.1 he.symm
    simp [alookup, hne, ih h.2]

/-! ### Helper lemmas on the read path -/

theorem first_encoding_eq_find (a : Asset) (accepts : List String) :
    (first_encoding a accepts).map Prod.fst
      = accepts.find? fun n => (alookup a.encodings n).isSome := by
  induction accepts with
  | nil => simp [first_encoding]
  | cons n rest ih =>
    cases h : alookup a.encodings n with
    | none => simp [first_encoding, h, List.find?, ih]
    | some e => simp [first_encoding, h, List.find?]

theorem get_error_is_not_found (s : State) (key : Key)
    (accepts : List String) (e : Err) (h : get s key accepts = .error e) :
    e = .NotFound := by
  cases ha : alookup s.assets key with
  | none =>
    simp [get, ha] at h
    exact h.symm
  | some a =>
    cases hf : first_encoding a accepts with
    | none =>
      simp [get, ha, hf] at h
      exact h.symm
    | some p =>
      obtain ⟨n, enc⟩ := p
      simp [get, ha, hf] at h

theorem get_chunk_no_expected_hash_error (s : State) (key : Key)
    (content_encoding : String) (index : Nat) (e : Err)
    (h : get_chunk s key content_encoding index none = .error e) :
    e = .NotFound := by
  cases ha : alookup s.assets key with
  | none =>
    simp [get_chunk, ha] at h
    exact h.symm
  | some a =>
    cases he : alookup a.encodings content_encoding with
    | none =>
      simp [get_chunk, ha, he] at h
      exact h.symm
    | some enc =>
      cases hc : enc.content_chunks[index]? with
      | none =>
        simp [get_chunk, ha, he, hc] at h
        exact h.symm
      | some c =>
        simp [get_chunk, ha, he, hc] at h

/-! ### C5 — `get` encoding selection -/

/-- C5: For every get request, the encoding returned is the first element of
the caller-supplied `accept_encodings` list (in the caller's order) that is
present on the asset; if no element of `accept_encodings` is present on the
asset (or the key is unknown), `get` fails with `NotFound`. -/
theorem get_selects_first_accepted_encoding (s : State) (key : Key)
    (accepts : List String) :
    (alookup s.assets key = none → get s key accepts = .error .NotFound) ∧
    (∀ a, alookup s.assets key = some a →
      ((accepts.find? fun n => (alookup a.encodings n).isSome) = none →
        get s key accepts = .error .NotFound) ∧
      (∀ n, (accepts.find? fun n => (alookup a.encodings n).isSome) = some n →
        ∃ v, get s key accepts = .ok v ∧ v.content_encoding = n)) := by
  refine ⟨fun hnone => by simp [get, hnone], fun a ha => ⟨fun hf => ?_, fun n hf => ?_⟩⟩
  · have := first_encoding_eq_find a accepts
    rw [hf] at this
    cases hfe : first_encoding a accepts with
    | none => simp [get, ha, hfe]
    | some p => rw [hfe] at this; simp at this
  · have := first_encoding_eq_find a accepts
    rw [hf] at this
    cases hfe : first_encoding a accepts with
    | none => rw [hfe] at this; simp at this
    | some p =>
      obtain ⟨n₂, enc⟩ := p
      rw [hfe] at this
      simp at this
      subst this
      refine ⟨⟨enc.content_chunks.headD [], a.content_type, n₂,
               enc.total_length, enc.sha256⟩, ?_, rfl⟩
      simp [get, ha, hfe]

/-- Witness for C5 at a concrete store: on the asset `"a"` (which lacks
`"br"` but has `"gzip"`), a request preferring `["br", "gzip"]` returns the
`"gzip"` encoding; on an unknown key `get` is `NotFound`. -/
theorem get_selects_first_accepted_encoding_witness :
    (∃ v, get exState "a" ["br", "gzip"] = .ok v ∧ v.content_encoding = "gzip") ∧
    get exState "nope" [] = Except.error Err.NotFound :=
  ⟨((get_selects_first_accepted_encoding exState "a" ["br", "gzip"]).2
      assetBothEx (by decide)).2 "gzip" (by decide),
   (get_selects_first_accepted_encoding exState "nope" []).1 (by decide)⟩

/-! ### C9 — `exists` helper -/

/-- C9: The `exists(asset_name)` helper returns true iff a `get` for that
key with `accept_encodings = ["identity"]` succeeds; consequently, for every
asset that holds only non-identity encodings, `exists` returns false even
though the asset is present in the store. -/
theorem exists_asset_iff_identity_get (s : State) (name : String) :
    (exists_asset s name = true ↔ ∃ v, get s name ["identity"] = .ok v) ∧
    (∀ a, alookup s.assets name = some a →
      alookup a.encodings "identity" = none → exists_asset s name = false) := by
  constructor
  · constructor
    · intro h
      unfold exists_asset at h
      cases hg : get s name ["identity"] with
      | ok v => exact ⟨v, rfl⟩
      | error e => rw [hg] at h; simp at h
    · rintro ⟨v, hv⟩
      simp [exists_asset, hv]
  · intro a ha hid
    simp [exists_asset, get, ha, first_encoding, hid]

/-- Witness for C9 at a concrete store: the asset `"g"` is present but holds
only a `"gzip"` encoding, and `exists` returns false for it; for the asset
`"a"` (which has an identity encoding) it returns true. -/
theorem exists_asset_iff_identity_get_witness :
    exists_asset exState "g" = false ∧ exists_asset exState "a" = true :=
  ⟨(exists_asset_iff_identity_get exState "g").2 assetGzipOnlyEx
      (by decide) (by decide),
   (exists_asset_iff_identity_get exState "a").1.2
      ⟨⟨[104], "text/plain", "identity", 2, [104, 105]⟩, by rfl⟩⟩

/-! ### C10 — no `HashMismatch` from the pagination helper -/

theorem get_asset_loop_no_hash_mismatch (s : State) (key : Key) (total : Nat) :
    ∀ fuel index acc,
      get_asset_loop s key total fuel index acc ≠ .error .HashMismatch := by
  intro fuel
  induction fuel with
  | zero =>
    intro index acc
    unfold get_asset_loop
    by_cases h : acc.length < total <;> simp [h]
  | succ f ih =>
    intro index acc
    unfold get_asset_loop
    by_cases h : acc.length < total
    · simp only [h, if_true]
      cases hc : get_asset_chunk s key index with
      | ok chunk => exact ih (index + 1) (acc ++ chunk)
      | error e =>
        have := get_chunk_no_expected_hash_error s key "identity" index e hc
        subst this
        intro hcontra
        cases hcontra
    · simp [h]

/-- C10: `get_asset_chunk` always requests chunks of the `"identity"`
encoding with no expected sha256 digest, so neither it nor the `get_asset`
pagination loop can ever fail with `HashMismatch`, for every store state,
key and fuel. -/
theorem get_asset_never_hash_mismatch (s : State) (key : Key) (index : Nat)
    (name : String) (fuel : Nat) :
    get_asset_chunk s key index ≠ .error .HashMismatch ∧
    get_asset s name fuel ≠ .error .HashMismatch := by
  constructor
  · intro h
    have := get_chunk_no_expected_hash_error s key "identity" index .HashMismatch h
    cases this
  · intro h
    unfold get_asset at h
    cases hg : get s name ["identity"] with
    | error e =>
      rw [hg] at h
      have := get_error_is_not_found s name ["identity"] e hg
      subst this
      cases h
    | ok v =>
      rw [hg] at h
      exact get_asset_loop_no_hash_mismatch s name v.total_length fuel 0 [] h

/-- Witness for C10 at a concrete store and inputs. -/
theorem get_asset_never_hash_mismatch_witness :
    get_asset_chunk exState "a" 0 ≠ Except.error Err.HashMismatch ∧
    get_asset exState "a" 5 ≠ Except.error Err.HashMismatch :=
  get_asset_never_hash_mismatch exState "a" 0 "a" 5

/-! ### C7 — `unset_asset_content` frame effect -/

/-- C7: After `unset_asset_content(key, enc)` succeeds on an asset holding
encoding `enc`, a `get` for `key` requesting only `enc` fails with
`NotFound`, while every other encoding of that asset is unchanged (hence
keeps its length and stored hash, and stays retrievable through `get`), and
the asset itself remains present with its content type intact. -/
theorem unset_asset_content_removes_only_that_encoding (s : State)
    (key : Key) (enc : String) (a : Asset) (e : AssetEncoding)
    (ha : alookup s.assets key = some a)
    (_he : alookup a.encodings enc = some e) :
    ∃ s₂, unset_asset_content key enc s = .ok s₂ ∧
      get s₂ key [enc] = .error .NotFound ∧
      ∃ a₂, alookup s₂.assets key = some a₂ ∧
        a₂.content_type = a.content_type ∧
        alookup a₂.encodings enc = none ∧
        (∀ o, o ≠ enc → alookup a₂.encodings o = alookup a.encodings o) ∧
        (∀ o e₂, o ≠ enc → alookup a.encodings o = some e₂ →
          ∃ v, get s₂ key [o] = .ok v ∧
            v.total_length = e₂.total_length ∧ v.sha256 = e₂.sha256) := by
  have hrun : unset_asset_content key enc s
      = .ok { s with assets := aset s.assets key { a with encodings := aremove a.encodings enc } } := by
    simp [unset_asset_content, ha]
  refine ⟨_, hrun, ?_, ⟨{ a with encodings := aremove a.encodings enc },
    alookup_aset_self _ _ _, rfl, alookup_aremove_self _ _,
    fun o ho => alookup_aremove_ne _ _ _ ho, fun o e₂ ho he₂ => ?_⟩⟩
  · have hg : alookup (aset s.assets key
        ({ a with encodings := aremove a.encodings enc })) key
        = some { a with encodings := aremove a.encodings enc } :=
      alookup_aset_self _ _ _
    simp [get, hg, first_encoding, alookup_aremove_self]
  · have hg : alookup (aset s.assets key
        ({ a with encodings := aremove a.encodings enc })) key
        = some { a with encodings := aremove a.encodings enc } :=
      alookup_aset_self _ _ _
    have ho₂ : alookup (aremove a.encodings enc) o = some e₂ := by
      rw [alookup_aremove_ne _ _ _ ho]; exact he₂
    refine ⟨⟨e₂.content_chunks.headD [], a.content_type, o,
             e₂.total_length, e₂.sha256⟩, ?_, rfl, rfl⟩
    simp [get, hg, first_encoding, ho₂]

/-- Witness for C7 at a concrete store: removing `"gzip"` from asset `"a"`
makes `get` for `"gzip"` fail while the `"identity"` encoding is intact. -/
theorem unset_asset_content_removes_only_that_encoding_witness :
    ∃ s₂, unset_asset_content "a" "gzip" exState = .ok s₂ ∧
      get s₂ "a" ["gzip"] = .error .NotFound ∧
      ∃ a₂, alookup s₂.assets "a" = some a₂ ∧
        a₂.content_type = assetBothEx.content_type ∧
        alookup a₂.encodings "gzip" = none ∧
        (∀ o, o ≠ "gzip" → alookup a₂.encodings o = alookup assetBothEx.encodings o) ∧
        (∀ o e₂, o ≠ "gzip" → alookup assetBothEx.encodings o = some e₂ →
          ∃ v, get s₂ "a" [o] = .ok v ∧
            v.total_length = e₂.total_length ∧ v.sha256 = e₂.sha256) :=
  unset_asset_content_removes_only_that_encoding exState "a" "gzip"
    assetBothEx encGzipEx (by decide) (by decide)

/-! ### C8 — `list_assets` order -/

/-- C8: `list_assets` returns one entry per asset in the store, in the
insertion order of the assets: the listed keys are exactly the store's keys
in store order, and creating a fresh asset appends its key at the end of the
listing (never a sorted position). -/
theorem list_assets_insertion_order (s : State) (key : Key) (ct : String)
    (hfresh : alookup s.assets key = none) :
    (list_assets s).map AssetDetails.key = s.assets.map Prod.fst ∧
    ∃ s₂, create_asset key ct s = .ok s₂ ∧
      (list_assets s₂).map AssetDetails.key = s.assets.map Prod.fst ++ [key] := by
  refine ⟨by simp [list_assets], ?_⟩
  refine ⟨{ s with assets := s.assets ++ [(key, { content_type := ct, encodings := [] })] },
    by simp [create_asset, hfresh], ?_⟩
  simp [list_assets]

/-- Witness for C8 at a concrete store: the listing order is the creation
order (`"a"` then `"g"`), and creating `"b"` appends it at the end even
though `"b" < "g"` lexically. -/
theorem list_assets_insertion_order_witness :
    (list_assets exState).map AssetDetails.key = ["a", "g"] ∧
    ∃ s₂, create_asset "b" "text/plain" exState = .ok s₂ ∧
      (list_assets s₂).map AssetDetails.key = ["a", "g"] ++ ["b"] :=
  list_assets_insertion_order exState "b" "text/plain" (by decide)

theorem take_chunks_preserves_authorized (owner : Option Nat) :
    ∀ (ids : List Nat) (s : State) (r : List Bytes) (s₂ : State),
      take_chunks owner ids s = .ok (r, s₂) → s₂.authorized = s.authorized := by
  intro ids
  induction ids with
  | nil =>
    intro s r s₂ h
    simp [take_chunks] at h
    rw [← h.2]
  | cons cid rest ih =>
    intro s r s₂ h
    unfold take_chunks at h
    cases hc : alookup s.chunks cid with
    | none => rw [hc] at h; cases h
    | some c =>
      rw [hc] at h
      by_cases ho : owner = some c.batch_id ∨ owner = none
      · simp only [ho, if_true] at h
        cases htc : take_chunks owner rest { s with chunks := aremove s.chunks cid } with
        | error e => rw [htc] at h; cases h
        | ok p =>
          obtain ⟨bs, s₃⟩ := p
          rw [htc] at h
          simp at h
          rw [← h.2]
          exact ih { s with chunks := aremove s.chunks cid } bs s₃ htc
      · simp only [ho, if_false] at h
        cases h

theorem set_asset_content_preserves_authorized (digest : Bytes → Bytes)
    (owner : Option Nat) (key : Key) (enc : String) (ids : List Nat)
    (sha : Option Bytes) (now : Nat) (s s₂ : State)
    (h : set_asset_content digest owner key enc ids sha now s = .ok s₂) :
    s₂.authorized = s.authorized := by
  unfold set_asset_content at h
  cases ha : alookup s.assets key with
  | none => rw [ha] at h; cases h
  | some a =>
    rw [ha] at h
    cases htc : take_chunks owner ids s with
    | error e => rw [htc] at h; cases h
    | ok p =>
      obtain ⟨contents, s₁⟩ := p
      rw [htc] at h
      have h₁ := take_chunks_preserves_authorized owner ids s contents s₁ htc
      cases sha with
      | none =>
        simp at h
        rw [← h]
        exact h₁
      | some expected =>
        simp at h
        by_cases hh : expected = digest contents.flatten
        · rw [if_pos hh] at h
          cases h
          exact h₁
        · rw [if_neg hh] at h
          cases h

theorem apply_operation_preserves_authorized (digest : Bytes → Bytes)
    (batch_id now : Nat) (op : Operation) (s s₂ : State)
    (h : apply_operation digest batch_id now op s = .ok s₂) :
    s₂.authorized = s.authorized := by
  cases op with
  | CreateAsset key ct =>
    simp only [apply_operation, create_asset] at h
    cases ha : alookup s.assets key with
    | none => rw [ha] at h; cases h; rfl
    | some a =>
      simp only [ha] at h
      by_cases hct : a.content_type = ct
      · rw [if_pos hct] at h; cases h; rfl
      · rw [if_neg hct] at h; cases h
  | SetAssetContent key enc ids sha =>
    exact set_asset_content_preserves_authorized digest (some batch_id)
      key enc ids sha now s s₂ h
  | UnsetAssetContent key enc =>
    simp only [apply_operation, unset_asset_content] at h
    cases ha : alookup s.assets key with
    | none => rw [ha] at h; cases h
    | some a => rw [ha] at h; cases h; rfl
  | DeleteAsset key =>
    simp only [apply_operation, delete_asset] at h
    cases h
    rfl

theorem apply_operations_preserves_authorized (digest : Bytes → Bytes)
    (batch_id now : Nat) :
    ∀ (ops : List Operation) (s s₂ : State),
      apply_operations digest batch_id now ops s = .ok s₂ →
      s₂.authorized = s.authorized := by
  intro ops
  induction ops with
  | nil =>
    intro s s₂ h
    simp [apply_operations] at h
    rw [← h]
  | cons op rest ih =>
    intro s s₂ h
    unfold apply_operations at h
    cases hop : apply_operation digest batch_id now op s with
    | error e => rw [hop] at h; cases h
    | ok s₁ =>
      rw [hop] at h
      rw [ih s₁ s₂ h]
      exact apply_operation_preserves_authorized digest batch_id now op s s₁ hop

theorem run_mutation_authorized (digest : Bytes → Bytes) (m : Mutation)
    (now : Nat) (s : State) :
    (dispatch_mutation digest m now s).authorized =
      match m with
      | .Authorize caller other =>
        if caller ∈ s.authorized then
          (if other ∈ s.authorized then s.authorized
           else s.authorized ++ [other])
        else s.authorized
      | _ => s.authorized := by
  cases m with
  | Authorize caller other =>
    by_cases hc : caller ∈ s.authorized
    · simp [dispatch_mutation, run_mutation, authorize, hc]
    · simp [dispatch_mutation, run_mutation, authorize, hc]
  | CreateBatch => simp [dispatch_mutation, run_mutation, create_batch]
  | CreateChunk batch_id content =>
    unfold dispatch_mutation run_mutation create_chunk
    cases hb : alookup s.batches batch_id with
    | none => simp [hb, Except.map]
    | some b =>
      by_cases hexp : b.expires_at < now
      · simp [hb, hexp, Except.map]
      · simp [hb, hexp, Except.map]
  | CreateAsset key ct =>
    unfold dispatch_mutation
    cases h : run_mutation digest (.CreateAsset key ct) now s with
    | error e => rfl
    | ok s₂ =>
      show s₂.authorized = s.authorized
      exact apply_operation_preserves_authorized digest 0 now
        (.CreateAsset key ct) s s₂ h
  | SetAssetContent key enc ids sha =>
    unfold dispatch_mutation
    cases h : run_mutation digest (.SetAssetContent key enc ids sha) now s with
    | error e => rfl
    | ok s₂ =>
      show s₂.authorized = s.authorized
      exact set_asset_content_preserves_authorized digest none
        key enc ids sha now s s₂ h
  | UnsetAssetContent key enc =>
    unfold dispatch_mutation
    cases h : run_mutation digest (.UnsetAssetContent key enc) now s with
    | error e => rfl
    | ok s₂ =>
      show s₂.authorized = s.authorized
      simp only [run_mutation, unset_asset_content] at h
      cases ha : alookup s.assets key with
      | none => rw [ha] at h; cases h
      | some a => rw [ha] at h; cases h; rfl
  | DeleteAsset key => simp [dispatch_mutation, run_mutation, delete_asset]
  | CommitBatch batch_id ops =>
    unfold dispatch_mutation
    cases h : run_mutation digest (.CommitBatch batch_id ops) now s with
    | error e => rfl
    | ok s₂ =>
      show s₂.authorized = s.authorized
      simp only [run_mutation, commit_batch] at h
      cases hb : alookup s.batches batch_id with
      | none => rw [hb] at h; cases h
      | some b =>
        simp only [hb] at h
        by_cases hexp : b.expires_at < now
        · rw [if_pos hexp] at h; cases h
        · rw [if_neg hexp] at h
          cases hops : apply_operations digest batch_id now ops s with
          | error e => rw [hops] at h; cases h
          | ok s₁ =>
            rw [hops] at h
            cases h
            exact apply_operations_preserves_authorized digest batch_id now
              ops s s₁ hops
  | Clear => simp [dispatch_mutation, run_mutation, clear]

theorem run_trace_authorized (digest : Bytes → Bytes) :
    ∀ (trace : List (Mutation × Nat)) (s : State),
      (run_trace digest trace s).authorized = auth_trace_spec trace s.authorized := by
  intro trace
  induction trace with
  | nil => intro s; rfl
  | cons p rest ih =>
    intro s
    obtain ⟨m, now⟩ := p
    have hstep := run_mutation_authorized digest m now s
    cases m with
    | Authorize caller other =>
      show (run_trace digest rest (dispatch_mutation digest (.Authorize caller other) now s)).authorized = _
      rw [ih (dispatch_mutation digest (.Authorize caller other) now s), hstep]
      rfl
    | CreateBatch =>
      show (run_trace digest rest _).authorized = _
      rw [ih, hstep]
      rfl
    | CreateChunk batch_id content =>
      show (run_trace digest rest _).authorized = _
      rw [ih, hstep]
      rfl
    | CreateAsset key ct =>
      show (run_trace digest rest _).authorized = _
      rw [ih, hstep]
      rfl
    | SetAssetContent key enc ids sha =>
      show (run_trace digest rest _).authorized = _
      rw [ih, hstep]
      rfl
    | UnsetAssetContent key enc =>
      show (run_trace digest rest _).authorized = _
      rw [ih, hstep]
      rfl
    | DeleteAsset key =>
      show (run_trace digest rest _).authorized = _
      rw [ih, hstep]
      rfl
    | CommitBatch batch_id ops =>
      show (run_trace digest rest _).authorized = _
      rw [ih, hstep]
      rfl
    | Clear =>
      show (run_trace digest rest _).authorized = _
      rw [ih, hstep]
      rfl

/-- C6: In every state reachable from `init`, the authorization list is
exactly the initializing identity plus the identities added by `authorize`
calls whose caller was authorized at the time of the call: `init` yields
exactly one authorized identity, `authorize` by a non-authorized caller
fails with `Unauthorized` (and, the call trapping, leaves the state
unchanged), and no other mutation (including `clear`) adds or removes
identities. -/
theorem authorization_list_exact (digest : Bytes → Bytes)
    (deployer : Principal) (trace : List (Mutation × Nat)) :
    (init deployer State.default).authorized = [deployer] ∧
    (run_trace digest trace (init deployer State.default)).authorized
      = auth_trace_spec trace [deployer] ∧
    (∀ caller other s nowₓ, caller ∉ s.authorized →
      authorize caller other s = .error .Unauthorized ∧
      dispatch_mutation digest (.Authorize caller other) nowₓ s = s) := by
  refine ⟨by simp [init, clear, authorize_unconditionally, State.default], ?_, ?_⟩
  · have h := run_trace_authorized digest trace (init deployer State.default)
    have hinit : (init deployer State.default).authorized = [deployer] := by
      simp [init, clear, authorize_unconditionally, State.default]
    rw [hinit] at h
    exact h
  · intro caller other s nowₓ hns
    exact ⟨by simp [authorize, hns],
           by simp [dispatch_mutation, run_mutation, authorize, hns]⟩

/-- Witness for C6: a concrete trace on a concrete store — the deployer `0`
authorizes `1`, an unauthorized caller `9` fails to authorize `2`, and a
`clear` preserves the list; the final list is exactly `[0, 1]`. -/
theorem authorization_list_exact_witness :
    (init 0 State.default).authorized = [0] ∧
    (run_trace (fun b => b)
      [(.Authorize 0 1, 5), (.Authorize 9 2, 6), (.Clear, 7)]
      (init 0 State.default)).authorized
      = auth_trace_spec
          [(.Authorize 0 1, 5), (.Authorize 9 2, 6), (.Clear, 7)] [0] ∧
    (authorize 9 2 { State.default with authorized := [0, 1] }
        = .error .Unauthorized ∧
     dispatch_mutation (fun b => b) (.Authorize 9 2) 6
        { State.default with authorized := [0, 1] }
        = { State.default with authorized := [0, 1] }) :=
  have h := authorization_list_exact (fun b => b) 0
    [(.Authorize 0 1, 5), (.Authorize 9 2, 6), (.Clear, 7)]
  ⟨h.1, h.2.1,
   h.2.2 9 2 { State.default with authorized := [0, 1] } 6 (by decide)⟩

/-! ### C2 — failed mutations leave the state intact -/

/-- C2: For every mutation operation and every state, if the operation
returns an error then the store's state after the call (under the `lib.rs`
trap-on-error dispatch) equals the state before it; in particular a failing
`commit_batch` applies none of its operations and every batch present
before the call — the committing one included — is still present,
unchanged, afterwards. -/
theorem mutation_error_leaves_state_unchanged (digest : Bytes → Bytes)
    (m : Mutation) (now : Nat) (s : State) (e : Err)
    (herr : run_mutation digest m now s = .error e) :
    dispatch_mutation digest m now s = s ∧
    (dispatch_mutation digest m now s).batches = s.batches ∧
    (∀ bid b, alookup s.batches bid = some b →
      alookup (dispatch_mutation digest m now s).batches bid = some b) := by
  have hd : dispatch_mutation digest m now s = s := by
    unfold dispatch_mutation
    rw [herr]
  exact ⟨hd, by rw [hd], fun bid b hb => by rw [hd]; exact hb⟩

/-- Witness for C2: committing an unknown batch on a concrete store fails
with `NotFound` and the dispatch leaves the state untouched. -/
theorem mutation_error_leaves_state_unchanged_witness :
    dispatch_mutation (fun b => b)
      (.CommitBatch 42 [.DeleteAsset "a"]) 0 exState = exState ∧
    (dispatch_mutation (fun b => b)
      (.CommitBatch 42 [.DeleteAsset "a"]) 0 exState).batches = exState.batches ∧
    (∀ bid b, alookup exState.batches bid = some b →
      alookup (dispatch_mutation (fun b => b)
        (.CommitBatch 42 [.DeleteAsset "a"]) 0 exState).batches bid = some b) :=
  mutation_error_leaves_state_unchanged (fun b => b)
    (.CommitBatch 42 [.DeleteAsset "a"]) 0 exState .NotFound (by rfl)

theorem bytesLe_total (a b : Bytes) : (bytesLe a b || bytesLe b a) = true := by
  induction a generalizing b with
  | nil => simp [bytesLe]
  | cons x xs ih =>
    cases b with
    | nil => simp [bytesLe]
    | cons y ys =>
      by_cases hxy : x < y
      · simp [bytesLe, hxy]
      · by_cases hyx : y < x
        · simp [bytesLe, hxy, hyx]
        · simp [bytesLe, hxy, hyx, ih ys]

theorem bytesLe_trans (a b c : Bytes) (h₁ : bytesLe a b = true)
    (h₂ : bytesLe b c = true) : bytesLe a c = true := by
  induction a generalizing b c with
  | nil => simp [bytesLe]
  | cons x xs ih =>
    cases b with
    | nil => simp [bytesLe] at h₁
    | cons y ys =>
      cases c with
      | nil => simp [bytesLe] at h₂
      | cons z zs =>
        simp only [bytesLe] at h₁ h₂ ⊢
        by_cases hxy : x < y
        · by_cases hyz : y < z
          · have hxz : x < z := hxy.trans hyz
            simp [hxz]
          · by_cases hzy : z < y
            · simp [hyz, hzy] at h₂
            · have hyzeq : y = z := by omega
              subst hyzeq
              simp [hxy]
        · by_cases hyx : y < x
          · simp [hxy, hyx] at h₁
          · have hxyeq : x = y := by omega
            subst hxyeq
            simp only [hxy, if_false, lt_irrefl] at h₁ ⊢
            by_cases hyz : x < z
            · simp [hyz]
            · by_cases hzy : z < x
              · simp [hyz, hzy] at h₂
              · simp only [hyz, if_false, hzy] at h₂ ⊢
                exact ih ys zs h₁ h₂

theorem bytesLe_antisymm (a b : Bytes) (h₁ : bytesLe a b = true)
    (h₂ : bytesLe b a = true) : a = b := by
  induction a generalizing b with
  | nil =>
    cases b with
    | nil => rfl
    | cons y ys => simp [bytesLe] at h₂
  | cons x xs ih =>
    cases b with
    | nil => simp [bytesLe] at h₁
    | cons y ys =>
      simp only [bytesLe] at h₁ h₂
      by_cases hxy : x < y
      · simp [Nat.lt_asymm hxy, hxy] at h₂
      · by_cases hyx : y < x
        · simp [hxy, hyx] at h₁
        · have hxyeq : x = y := by omega
          subst hxyeq
          simp only [lt_irrefl, if_false] at h₁ h₂
          rw [ih ys h₁ h₂]

/-- C3: The certification root digest is a pure function of the current set
of (asset key, encoding name) → content-hash pairs: any two stores holding
the same multiset of certification entries — regardless of the operation
histories by which each reached it — have equal root digests. -/
theorem root_hash_pure_function_of_entries (digest : Bytes → Bytes)
    (s₁ s₂ : State) (h : (cert_entries s₁).Perm (cert_entries s₂)) :
    root_hash digest s₁ = root_hash digest s₂ := by
  have hmap : ((cert_entries s₁).map encode_entry).Perm
      ((cert_entries s₂).map encode_entry) := h.map encode_entry
  have hperm : (((cert_entries s₁).map encode_entry).mergeSort bytesLe).Perm
      (((cert_entries s₂).map encode_entry).mergeSort bytesLe) :=
    (List.mergeSort_perm _ bytesLe).trans
      (hmap.trans (List.mergeSort_perm _ bytesLe).symm)
  have hs₁ : (((cert_entries s₁).map encode_entry).mergeSort bytesLe).Sorted
      (fun a b => bytesLe a b = true) :=
    List.sorted_mergeSort bytesLe_trans bytesLe_total _
  have hs₂ : (((cert_entries s₂).map encode_entry).mergeSort bytesLe).Sorted
      (fun a b => bytesLe a b = true) :=
    List.sorted_mergeSort bytesLe_trans bytesLe_total _
  haveI : IsAntisymm Bytes (fun a b => bytesLe a b = true) := ⟨bytesLe_antisymm⟩
  have heq := List.eq_of_perm_of_sorted hperm hs₁ hs₂
  unfold root_hash
  rw [heq]

/-- Witness for C3: the two stores built by `exTraceAB` and `exTraceBA`
differ (their asset lists are in different orders) yet hold the same
certification entries up to permutation, and their root digests coincide. -/
theorem root_hash_pure_function_of_entries_witness :
    (cert_entries (run_trace (fun b => b) exTraceAB (init 0 State.default))).Perm
      (cert_entries (run_trace (fun b => b) exTraceBA (init 0 State.default))) ∧
    root_hash (fun b => b) (run_trace (fun b => b) exTraceAB (init 0 State.default))
      = root_hash (fun b => b) (run_trace (fun b => b) exTraceBA (init 0 State.default)) := by
  refine ⟨?_, ?_⟩
  · decide
  · exact root_hash_pure_function_of_entries (fun b => b) _ _ (by decide)

/-! ### C4 — `get_asset` reconstructs the full encoding -/

theorem flatten_take_eq_of_sum_le (l : List Bytes) (i : Nat)
    (h : (l.map List.length).sum ≤ ((l.take i).map List.length).sum) :
    (l.take i).flatten = l.flatten := by
  have hsplit : ((l.take i).map List.length).sum + ((l.drop i).map List.length).sum
      = (l.map List.length).sum := by
    conv_rhs => rw [← List.take_append_drop i l]
    rw [List.map_append, List.sum_append]
  have hdrop : ((l.drop i).map List.length).sum = 0 := by omega
  have hlen0 : (l.drop i).flatten.length = 0 := by
    rw [List.length_flatten]
    exact hdrop
  have hnil : (l.drop i).flatten = [] := List.eq_nil_of_length_eq_zero hlen0
  conv_rhs => rw [← List.take_append_drop i l]
  rw [List.flatten_append, hnil, List.append_nil]

theorem get_asset_loop_reconstructs (s : State) (key : Key) (a : Asset)
    (e : AssetEncoding)
    (ha : alookup s.assets key = some a)
    (he : alookup a.encodings "identity" = some e)
    (hlen : e.total_length = (e.content_chunks.map List.length).sum) :
    ∀ fuel i, e.content_chunks.length - i ≤ fuel →
      get_asset_loop s key e.total_length fuel i (e.content_chunks.take i).flatten
        = .ok (some e.content_chunks.flatten) := by
  intro fuel
  induction fuel with
  | zero =>
    intro i hf
    have hi : e.content_chunks.length ≤ i := by omega
    rw [List.take_of_length_le hi]
    unfold get_asset_loop
    have hc : ¬ (e.content_chunks.flatten.length < e.total_length) := by
      rw [hlen, List.length_flatten]
      omega
    rw [if_neg hc]
  | succ f ih =>
    intro i hf
    unfold get_asset_loop
    by_cases hcond : ((e.content_chunks.take i).flatten).length < e.total_length
    · have hi : i < e.content_chunks.length := by
        by_contra hge
        push_neg at hge
        rw [List.take_of_length_le hge, List.length_flatten] at hcond
        omega
      have hchunk : e.content_chunks[i]? = some e.content_chunks[i] :=
        List.getElem?_eq_getElem hi
      have hgc : get_asset_chunk s key i = .ok e.content_chunks[i] := by
        simp [get_asset_chunk, get_chunk, ha, he, hchunk]
      simp only [hcond, if_true, hgc]
      have hext : (e.content_chunks.take i).flatten ++ e.content_chunks[i]
          = (e.content_chunks.take (i + 1)).flatten := by
        rw [List.take_succ, hchunk, List.flatten_append]
        simp
      rw [hext]
      exact ih (i + 1) (by omega)
    · simp only [hcond, if_false]
      have hge : e.total_length ≤ ((e.content_chunks.take i).flatten).length := by
        omega
      rw [List.length_flatten, hlen] at hge
      rw [flatten_take_eq_of_sum_le e.content_chunks i hge]

/-- C4: For an asset with an identity encoding (whose stored total length
and hash match its chunks, as every committed encoding's do), `get` followed
by fetching chunks of increasing index until the accumulated byte count
reaches `get`'s reported total length reconstructs exactly the encoding's
full byte content: the result is the concatenation of the chunks, its
length is the reported total length, and its digest is the stored hash. -/
theorem get_asset_reconstructs_content (digest : Bytes → Bytes) (s : State)
    (key : Key) (a : Asset) (e : AssetEncoding) (fuel : Nat)
    (ha : alookup s.assets key = some a)
    (he : alookup a.encodings "identity" = some e)
    (hlen : e.total_length = (e.content_chunks.map List.length).sum)
    (hsha : e.sha256 = digest e.content_chunks.flatten)
    (hfuel : e.content_chunks.length ≤ fuel) :
    ∃ v, get s key ["identity"] = .ok v ∧
      get_asset s key fuel = .ok (some e.content_chunks.flatten) ∧
      e.content_chunks.flatten.length = v.total_length ∧
      digest e.content_chunks.flatten = v.sha256 := by
  have hfe : first_encoding a ["identity"] = some ("identity", e) := by
    simp [first_encoding, he]
  have hget : get s key ["identity"]
      = .ok ⟨e.content_chunks.headD [], a.content_type, "identity",
             e.total_length, e.sha256⟩ := by
    simp [get, ha, hfe]
  refine ⟨_, hget, ?_, ?_, ?_⟩
  · unfold get_asset
    rw [hget]
    have h0 := get_asset_loop_reconstructs s key a e ha he hlen fuel 0 (by omega)
    simpa using h0
  · rw [List.length_flatten]
    exact hlen.symm
  · exact hsha.symm

/-- Witness for C4 at a concrete store: the two chunks `[10,11]` and `[12]`
are reassembled into `[10,11,12]`, whose length and digest match `get`'s
report. -/
theorem get_asset_reconstructs_content_witness :
    ∃ v, get exStateC4 "f" ["identity"] = .ok v ∧
      get_asset exStateC4 "f" 2 = .ok (some [10, 11, 12]) ∧
      (3 : Nat) = v.total_length ∧
      ([10, 11, 12] : Bytes) = v.sha256 :=
  get_asset_reconstructs_content (fun b => b) exStateC4 "f" assetC4 encC4
    2 (by decide) (by decide) (by decide) (by decide) (by decide)

/-! ### C1 — commit of a batch concatenates the chunks -/

theorem create_chunks_spec (now bid : Nat) :
    ∀ (contents : List Bytes) (s : State) (b : Batch),
      alookup s.batches bid = some b → ¬ b.expires_at < now →
      ∃ s₂, create_chunks bid contents now s
          = .ok (List.range' s.next_chunk_id contents.length, s₂) ∧
        s₂.assets = s.assets ∧
        s₂.chunks = s.chunks
          ++ (List.range' s.next_chunk_id contents.length).zip
               (contents.map fun c => { batch_id := bid, content := c }) ∧
        s₂.next_chunk_id = s.next_chunk_id + contents.length ∧
        ∃ b₂, alookup s₂.batches bid = some b₂ ∧ ¬ b₂.expires_at < now := by
  intro contents
  induction contents with
  | nil =>
    intro s b hb hexp
    exact ⟨s, by simp [create_chunks], rfl, by simp, by simp, b, hb, hexp⟩
  | cons c rest ih =>
    intro s b hb hexp
    have hcc : create_chunk bid c now s
        = .ok (s.next_chunk_id,
          { s with
            chunks := s.chunks ++ [(s.next_chunk_id, { batch_id := bid, content := c })],
            next_chunk_id := s.next_chunk_id + 1,
            batches := aset s.batches bid { expires_at := now + BATCH_EXPIRY_NANOS } }) := by
      simp [create_chunk, hb, hexp]
    obtain ⟨s₂, hrun, hassets, hchunks, hnext, b₂, hb₂, hexp₂⟩ :=
      ih { s with
            chunks := s.chunks ++ [(s.next_chunk_id, { batch_id := bid, content := c })],
            next_chunk_id := s.next_chunk_id + 1,
            batches := aset s.batches bid { expires_at := now + BATCH_EXPIRY_NANOS } }
        { expires_at := now + BATCH_EXPIRY_NANOS }
        (alookup_aset_self _ _ _)
        (by show ¬ now + BATCH_EXPIRY_NANOS < now; omega)
    refine ⟨s₂, ?_, hassets, ?_, by simp only [List.length_cons]; simp at hnext; omega, b₂, hb₂, hexp₂⟩
    · rw [show create_chunks bid (c :: rest) now s
          = (create_chunk bid c now s).bind (fun p =>
              (create_chunks bid rest now p.2).bind (fun q =>
                .ok (p.1 :: q.1, q.2))) from rfl]
      rw [hcc]
      show (create_chunks bid rest now _).bind _ = _
      rw [hrun]
      show Except.ok _ = _
      simp [List.range'_succ]
    · rw [hchunks]
      simp [List.range'_succ]

theorem aremove_cons_self {κ α : Type} [DecidableEq κ]
    (k : κ) (v : α) (t : List (κ × α)) :
    aremove ((k, v) :: t) k = aremove t k := by
  simp [aremove]

theorem take_chunks_spec (bid : Nat) :
    ∀ (ids : List Nat) (contents : List Bytes) (pre : List (Nat × Chunk)) (s : State),
      s.chunks = pre ++ ids.zip (contents.map fun c => { batch_id := bid, content := c }) →
      ids.length = contents.length →
      ids.Nodup →
      (∀ i ∈ ids, i ∉ pre.map Prod.fst) →
      take_chunks (some bid) ids s = .ok (contents, { s with chunks := pre }) := by
  intro ids
  induction ids with
  | nil =>
    intro contents pre s hch hlen _ _
    have hc : contents = [] := by
      cases contents with
      | nil => rfl
      | cons x xs => simp at hlen
    subst hc
    simp only [List.map_nil, List.zip_nil_right, List.append_nil] at hch
    show Except.ok ([], s) = _
    rw [show ({ s with chunks := pre } : State) = s from by cases s; simp_all]
  | cons cid rest ih =>
    intro contents pre s hch hlen hnodup hfresh
    cases contents with
    | nil => simp at hlen
    | cons c cs =>
      have hfreshcid : cid ∉ pre.map Prod.fst := hfresh cid (by simp)
      have hrestlen : rest.length = cs.length := by simpa using hlen
      have hziplen : rest.length ≤ (cs.map fun c => ({ batch_id := bid, content := c } : Chunk)).length := by
        simp [hrestlen]
      have hcidrest : cid ∉ rest := by
        simp only [List.nodup_cons] at hnodup
        exact hnodup.1
      have hcidzip : cid ∉ ((rest.zip (cs.map fun c => ({ batch_id := bid, content := c } : Chunk))).map Prod.fst) := by
        rw [List.map_fst_zip rest _ hziplen]
        exact hcidrest
      have hlook : alookup s.chunks cid = some { batch_id := bid, content := c } := by
        rw [hch]
        rw [alookup_append_right pre _ cid hfreshcid]
        simp [alookup]
      have hrem : aremove s.chunks cid
          = pre ++ rest.zip (cs.map fun c => { batch_id := bid, content := c }) := by
        rw [hch, aremove_append, aremove_of_not_mem pre cid hfreshcid]
        congr 1
        show aremove ((cid, _) :: _) cid = _
        rw [aremove_cons_self]
        exact aremove_of_not_mem _ cid hcidzip
      have hrec := ih cs pre { s with chunks := aremove s.chunks cid }
        (by show aremove s.chunks cid = _; exact hrem)
        hrestlen
        (by simp only [List.nodup_cons] at hnodup; exact hnodup.2)
        (fun i hi => hfresh i (by simp [hi]))
      show (match alookup s.chunks cid with
        | none => Except.error Err.NotFound
        | some c =>
          if some bid = some c.batch_id ∨ some bid = none then
            match take_chunks (some bid) rest { s with chunks := aremove s.chunks cid } with
            | .error e => .error e
            | .ok (bs, s₂) => .ok (c.content :: bs, s₂)
          else .error Err.NotFound) = _
      rw [hlook]
      show (if some bid = some ({ batch_id := bid, content := c } : Chunk).batch_id ∨ some bid = (none : Option Nat) then _ else _) = _
      rw [if_pos (Or.inl rfl)]
      rw [hrec]

theorem set_asset_content_ok (digest : Bytes → Bytes) (owner : Option Nat)
    (key : Key) (enc : String) (ids : List Nat) (now : Nat) (s sT : State)
    (a : Asset) (contents : List Bytes)
    (ha : alookup s.assets key = some a)
    (htake : take_chunks owner ids s = .ok (contents, sT)) :
    set_asset_content digest owner key enc ids none now s
      = .ok { sT with assets := aset sT.assets key { a with encodings := aset a.encodings enc { content_chunks := contents, total_length := (contents.map List.length).sum, sha256 := digest contents.flatten, modified := now } } } := by
  unfold set_asset_content
  rw [ha, htake]

/-- C1: Running `create_batch`, then `create_chunk` once per payload (in
order) on that batch, then `commit_batch` whose `set_content` operation
references all the fresh chunk ids in order, succeeds, and the resulting
encoding's chunk sequence is exactly the payload sequence (so its byte
content is their concatenation), its total length is the sum of the chunk
lengths, and its stored hash is the digest of the concatenation. The two
well-formedness hypotheses (existing chunk/batch ids are below the id
counters) hold in every reachable store since ids are allocated by
incrementing the counters. -/
theorem commit_batch_concatenates (digest : Bytes → Bytes) (s : State)
    (key : Key) (enc : String) (a : Asset) (ps : List Bytes) (now : Nat)
    (hwfC : ∀ p ∈ s.chunks, p.1 < s.next_chunk_id)
    (hwfB : ∀ p ∈ s.batches, p.1 < s.next_batch_id)
    (hasset : alookup s.assets key = some a) :
    ∃ ids s₂ s₃,
      create_chunks (create_batch now s).1 ps now (create_batch now s).2
        = .ok (ids, s₂) ∧
      commit_batch digest (create_batch now s).1
        [.SetAssetContent key enc ids none] now s₂ = .ok s₃ ∧
      ∃ a₂ e, alookup s₃.assets key = some a₂ ∧
        alookup a₂.encodings enc = some e ∧
        e.content_chunks = ps ∧
        e.content_chunks.flatten = ps.flatten ∧
        e.total_length = (ps.map List.length).sum ∧
        e.sha256 = digest ps.flatten := by
  have hlookb : alookup ((create_batch now s).2).batches s.next_batch_id
      = some { expires_at := now + BATCH_EXPIRY_NANOS } := by
    show alookup ((s.batches.filter fun p => decide (¬ p.2.expires_at < now))
        ++ [(s.next_batch_id, { expires_at := now + BATCH_EXPIRY_NANOS })])
        s.next_batch_id = _
    rw [alookup_append_right]
    · simp [alookup]
    · intro hmem
      simp only [List.mem_map] at hmem
      obtain ⟨p, hp, hpeq⟩ := hmem
      have := hwfB p (List.mem_of_mem_filter hp)
      omega
  obtain ⟨s₂, hrun, hassets₂, hchunks₂, hnext₂, b₂, hb₂, hexp₂⟩ :=
    create_chunks_spec now s.next_batch_id ps (create_batch now s).2
      { expires_at := now + BATCH_EXPIRY_NANOS } hlookb
      (by show ¬ now + BATCH_EXPIRY_NANOS < now; omega)
  have hnodup : (List.range' ((create_batch now s).2).next_chunk_id ps.length).Nodup :=
    List.nodup_range' _ _
  have hfresh : ∀ i ∈ List.range' ((create_batch now s).2).next_chunk_id ps.length,
      i ∉ ((create_batch now s).2).chunks.map Prod.fst := by
    intro i hi hmem
    obtain ⟨j, hj, hje⟩ := List.mem_range'.1 hi
    simp only [List.mem_map] at hmem
    obtain ⟨p, hp, hpeq⟩ := hmem
    have hplt : p.1 < s.next_chunk_id := hwfC p (List.mem_of_mem_filter hp)
    have : ((create_batch now s).2).next_chunk_id = s.next_chunk_id := rfl
    omega
  have htake := take_chunks_spec s.next_batch_id
    (List.range' ((create_batch now s).2).next_chunk_id ps.length) ps
    ((create_batch now s).2).chunks s₂ hchunks₂ (by simp) hnodup hfresh
  have hass₂ : alookup s₂.assets key = some a := by
    rw [hassets₂]
    exact hasset
  have hsetc := set_asset_content_ok digest (some s.next_batch_id) key enc
    (List.range' ((create_batch now s).2).next_chunk_id ps.length) now s₂
    { s₂ with chunks := ((create_batch now s).2).chunks } a ps hass₂ htake
  obtain ⟨s₃, hcommit, hs₃assets⟩ :
      ∃ s₃, commit_batch digest (create_batch now s).1
        [Operation.SetAssetContent key enc (List.range' ((create_batch now s).2).next_chunk_id ps.length) none] now s₂ = .ok s₃ ∧
        s₃.assets = aset s₂.assets key { a with encodings := aset a.encodings enc { content_chunks := ps, total_length := (ps.map List.length).sum, sha256 := digest ps.flatten, modified := now } } := by
    refine ⟨{ assets := aset s₂.assets key { a with encodings := aset a.encodings enc { content_chunks := ps, total_length := (ps.map List.length).sum, sha256 := digest ps.flatten, modified := now } }, chunks := ((create_batch now s).2).chunks.filter fun p => decide (p.2.batch_id ≠ s.next_batch_id), next_chunk_id := s₂.next_chunk_id, batches := aremove s₂.batches s.next_batch_id, next_batch_id := s₂.next_batch_id, authorized := s₂.authorized }, ?_, rfl⟩
    show commit_batch digest s.next_batch_id
        [Operation.SetAssetContent key enc (List.range' ((create_batch now s).2).next_chunk_id ps.length) none] now s₂ = _
    unfold commit_batch
    simp only [hb₂]
    rw [if_neg hexp₂]
    unfold apply_operations
    rw [show apply_operation digest s.next_batch_id now
        (Operation.SetAssetContent key enc (List.range' ((create_batch now s).2).next_chunk_id ps.length) none) s₂
        = set_asset_content digest (some s.next_batch_id) key enc
            (List.range' ((create_batch now s).2).next_chunk_id ps.length) none now s₂ from rfl]
    rw [hsetc]
    rfl
  refine ⟨List.range' ((create_batch now s).2).next_chunk_id ps.length, s₂, s₃,
    hrun, hcommit, { a with encodings := aset a.encodings enc { content_chunks := ps, total_length := (ps.map List.length).sum, sha256 := digest ps.flatten, modified := now } },
    { content_chunks := ps, total_length := (ps.map List.length).sum, sha256 := digest ps.flatten, modified := now },
    ?_, alookup_aset_self _ _ _, rfl, rfl, rfl, rfl⟩
  rw [hs₃assets]
  exact alookup_aset_self _ _ _

/-- Witness for C1: on a concrete store, a batch with two chunks `[1,2]` and
`[3]` committed onto asset `"a"` as `"identity"` yields content `[1,2,3]`,
total length 3, and hash `digest [1,2,3]` (identity digest here). -/
theorem commit_batch_concatenates_witness :
    ∃ ids s₂ s₃,
      create_chunks (create_batch 0 exState).1 [[1, 2], [3]] 0 (create_batch 0 exState).2
        = .ok (ids, s₂) ∧
      commit_batch (fun b => b) (create_batch 0 exState).1
        [.SetAssetContent "a" "identity" ids none] 0 s₂ = .ok s₃ ∧
      ∃ a₂ e, alookup s₃.assets "a" = some a₂ ∧
        alookup a₂.encodings "identity" = some e ∧
        e.content_chunks = [[1, 2], [3]] ∧
        e.content_chunks.flatten = [1, 2, 3] ∧
        e.total_length = 3 ∧
        e.sha256 = [1, 2, 3] := by
  obtain ⟨ids, s₂, s₃, h1, h2, a₂, e, h3, h4, h5, h6, h7, h8⟩ :=
    commit_batch_concatenates (fun b => b) exState "a" "identity" assetBothEx
      [[1, 2], [3]] 0
      (by intro p hp; simp [exState, State.default] at hp)
      (by intro p hp; simp [exState, State.default] at hp)
      (by decide)
  exact ⟨ids, s₂, s₃, h1, h2, a₂, e, h3, h4, h5,
    by rw [h6]; rfl, by rw [h7]; rfl, by rw [h8]; rfl⟩

end CertifiedAssets
